import Mathlib

/-!
Shallow embedding of the ch32-can-rs CAN driver core (src/lib.rs, src/registers.rs)
and a verification of the frozen specification claims against it.

Hardware register reads are modelled as oracles: a wait loop polling a status bit
consumes one read per loop-condition evaluation, so a read oracle `Nat → Bool`
(or `Nat → TStatR`) gives the value returned by the i-th read.  Register writes
performed by an operation are recorded as explicit event lists, in program order.
-/

namespace Ch32Can

/-- Iteration ceiling for the init-mode entry/exit wait loops (src/lib.rs line 154). -/
def CAN_INAK_TIMEOUT : Nat := 0xFFFF

/-- Iteration ceiling for transmit completion polling (src/lib.rs line 155). -/
def CAN_TX_TIMEOUT : Nat := 0xFFF

/-- Bounded while loop, counting condition evaluations.  `loopExit cond fuel i`
runs `while cond(i) { i += 1 }` starting at counter `i` with `fuel` remaining
condition evaluations, and returns the counter value at loop exit.  The i-th
condition evaluation performs the i-th hardware read, so the counter doubles as
the read index.  Called with `fuel` one more than a ceiling `T` such that
`cond T = false`, it is exact: fuel never runs out. -/
def loopExit (cond : Nat → Bool) : Nat → Nat → Nat
  | 0, i => i
  | fuel + 1, i => if cond i then loopExit cond fuel (i + 1) else i

/-- Unbounded while loop semantics, approximated by fuel: `some i` means the loop
exits after evaluating its condition at 0, 1, ..., i (the evaluation at `i`
returning false); `none` means the loop has not exited within `fuel` condition
evaluations.  A loop terminates iff some fuel yields `some`. -/
def whileSteps (cond : Nat → Bool) : Nat → Nat → Option Nat
  | 0, _ => none
  | fuel + 1, i => if cond i then whileSteps cond fuel (i + 1) else some i

/-- One read of the TSTATR transmit-status register, restricted to the three
per-mailbox bits the driver inspects (src/lib.rs lines 269-284). -/
structure TStatR where
  txok : Bool
  alst : Bool
  terr : Bool
  deriving DecidableEq, Repr

/-- Transmit outcome taxonomy (src/lib.rs lines 122-132).  Note there is no
mailboxes-full variant in the source. -/
inductive TxStatus
  | Sent
  | TimeoutError
  | ArbitrationError
  | OtherError
  deriving DecidableEq, Repr

/-- Result of a transmit call (src/lib.rs lines 134-140). -/
structure TxResult where
  status : TxStatus
  mailbox : Nat
  deriving DecidableEq, Repr

/-- Loop condition of `transmit_status_blocking`'s wait loop
(src/lib.rs line 269): `!tstatr.read().txok(m) && wait_status < CAN_TX_TIMEOUT`.
The read happens first (short-circuit `&&`), so every evaluation consumes a read
even when the counter has reached the ceiling. -/
def txCond (reads : Nat → TStatR) (i : Nat) : Bool :=
  !(reads i).txok && decide (i < CAN_TX_TIMEOUT)

/-- Final value of `wait_status` after the polling loop of
`transmit_status_blocking` (src/lib.rs lines 268-271). -/
def txWaitStatus (reads : Nat → TStatR) : Nat :=
  loopExit (txCond reads) (CAN_TX_TIMEOUT + 1) 0

/-- Embedding of `Can::transmit_status_blocking` (src/lib.rs lines 267-288):
poll `txok` up to `CAN_TX_TIMEOUT`; on a full budget return `TimeoutError`;
otherwise take a fresh TSTATR read and report `Sent`, `ArbitrationError`,
`OtherError` in that order, with `OtherError` as the fallback.
`Registers::transmit_status` (src/registers.rs lines 89-110) is identical. -/
def transmit_status_blocking (reads : Nat → TStatR) : TxStatus :=
  let wait_status := txWaitStatus reads
  if wait_status = CAN_TX_TIMEOUT then TxStatus.TimeoutError
  else
    let tx_result := reads (wait_status + 1)
    if tx_result.txok then TxStatus.Sent
    else if tx_result.alst then TxStatus.ArbitrationError
    else if tx_result.terr then TxStatus.OtherError
    else TxStatus.OtherError

/-- CAN operating modes (src/lib.rs lines 10-16). -/
inductive CanMode
  | Normal
  | Silent
  | Loopback
  | SilentLoopback
  deriving DecidableEq, Repr

/-- Hardware mode bits for a `CanMode` (src/lib.rs lines 18-23). -/
structure CanModeRegs where
  lbkm : Bool
  silm : Bool
  deriving DecidableEq, Repr

/-- Embedding of `CanMode::regs` (src/lib.rs lines 25-46). -/
def CanMode.regs : CanMode → CanModeRegs
  | CanMode.Normal => ⟨false, false⟩
  | CanMode.Silent => ⟨false, true⟩
  | CanMode.Loopback => ⟨true, false⟩
  | CanMode.SilentLoopback => ⟨true, true⟩

/-- Receive FIFO selector (src/lib.rs lines 48-51). -/
inductive CanFifo
  | Fifo0
  | Fifo1
  deriving DecidableEq, Repr

/-- Embedding of `CanFifo::val` (src/lib.rs lines 53-59). -/
def CanFifo.val : CanFifo → Nat
  | CanFifo.Fifo0 => 0
  | CanFifo.Fifo1 => 1

/-- Embedding of `CanFifo::val_bool` (src/lib.rs lines 61-66). -/
def CanFifo.val_bool : CanFifo → Bool
  | CanFifo.Fifo0 => false
  | CanFifo.Fifo1 => true

/-- Filter matching scheme (src/lib.rs lines 69-74). -/
inductive CanFilterMode
  | IdMask
  | IdList
  deriving DecidableEq, Repr

/-- Embedding of `CanFilterMode::val_bool` (src/lib.rs lines 76-83). -/
def CanFilterMode.val_bool : CanFilterMode → Bool
  | CanFilterMode.IdMask => false
  | CanFilterMode.IdList => true

/-- Acceptance filter description (src/lib.rs lines 86-97). -/
structure CanFilter where
  bank : Nat
  mode : CanFilterMode
  id_value : Nat
  id_mask : Nat
  deriving DecidableEq, Repr

/-- Embedding of `CanFilter::fr_id_value_reg` (src/lib.rs lines 100-103). -/
def CanFilter.fr_id_value_reg (f : CanFilter) : Nat := f.bank * 2 + 0

/-- Embedding of `CanFilter::fr_id_mask_reg` (src/lib.rs lines 105-108). -/
def CanFilter.fr_id_mask_reg (f : CanFilter) : Nat := f.bank * 2 + 1

/-- Register writes performed by `add_filter`, in program order.  `finit` is the
filter-init (filter-edit window) flag of FCTLR, `fact` the per-bank activation
flag of FWR, `fsc` the per-bank scale flag of FSCFGR, `fr` a filter pattern
register write, `fbm` the per-bank mode flag of FMCFGR, `ffa` the per-bank FIFO
association flag of FAFIFOR. -/
inductive FilterEvent
  | finit (b : Bool)
  | fact (bank : Nat) (b : Bool)
  | fsc (bank : Nat) (b : Bool)
  | fr (idx : Nat) (v : Nat)
  | fbm (bank : Nat) (b : Bool)
  | ffa (bank : Nat) (b : Bool)
  deriving DecidableEq, Repr

/-- Embedding of `Can::add_filter` (src/lib.rs lines 247-265) as its sequence of
register writes, in source order.  `Registers::add_filter`
(src/registers.rs lines 46-64) performs the identical sequence.  Note both
`fwr` writes in the source set the bank's activation flag to `true`
(lines 249 and 263). -/
def add_filter (fifo : CanFifo) (filter : CanFilter) : List FilterEvent :=
  [FilterEvent.finit true,
   FilterEvent.fact filter.bank true,
   FilterEvent.fsc filter.bank true,
   FilterEvent.fr filter.fr_id_value_reg filter.id_value,
   FilterEvent.fr filter.fr_id_mask_reg filter.id_mask,
   FilterEvent.fbm filter.bank filter.mode.val_bool,
   FilterEvent.ffa filter.bank fifo.val_bool,
   FilterEvent.fact filter.bank true,
   FilterEvent.finit false]

/-- Bit-timing parameters, the result type of the solver
(`util::NominalBitTiming`, consumed by src/lib.rs lines 212-225). -/
structure NominalBitTiming where
  prescaler : Nat
  seg1 : Nat
  seg2 : Nat
  sync_jump_width : Nat
  deriving DecidableEq, Repr

/-- Supported total-quanta counts, largest first (spec section 4.1: candidate
`tq` values from the maximum of the supported range 8..=25 down to the
minimum). -/
def tqCandidates : List Nat :=
  [25, 24, 23, 22, 21, 20, 19, 18, 17, 16, 15, 14, 13, 12, 11, 10, 9, 8]

/-- Prescaler candidate for a given total quanta count (spec section 4.1:
`prescaler = clock_hz / (bitrate_bps * tq)`). -/
def prescalerFor (clock bitrate tq : Nat) : Nat := clock / (bitrate * tq)

/-- Acceptance test for a total quanta count (spec section 4.1: the division
must be exact and the prescaler must fit the register field, 1..512 per the
data model of spec section 3 and the 0x1FF field mask in the source). -/
def tqExact (clock bitrate tq : Nat) : Bool :=
  (clock % (bitrate * tq) == 0)
    && decide (1 ≤ prescalerFor clock bitrate tq)
    && decide (prescalerFor clock bitrate tq ≤ 512)

/-- Distance of the sample point `(1+seg1)/tq` from 0.875, scaled by the common
positive factor `8*tq`: `|8*(1+seg1) - 7*tq|`.  Comparing these values for a
fixed `tq` compares the sample-point distances themselves. -/
def dist875 (tq seg1 : Nat) : Nat :=
  (8 * ((seg1 : Int) + 1) - 7 * (tq : Int)).natAbs

/-- Smallest admissible `seg1` for a total quanta count: `seg2 = tq - 1 - seg1`
must be at most 8 and `seg1` at least 1 (spec section 3 field ranges). -/
def seg1Lo (tq : Nat) : Nat := max 1 (tq - 9)

/-- Largest admissible `seg1` for a total quanta count: at most 16 and leaving
`seg2 = tq - 1 - seg1` at least 1 (spec section 3 field ranges). -/
def seg1Hi (tq : Nat) : Nat := min 16 (tq - 2)

/-- All admissible `seg1` values for a total quanta count. -/
def seg1Candidates (tq : Nat) : List Nat :=
  (List.range (seg1Hi tq + 1 - seg1Lo tq)).map (fun k => seg1Lo tq + k)

/-- First element of a list minimizing `f` (earlier elements win ties). -/
def pickMin (f : Nat → Nat) : List Nat → Option Nat
  | [] => none
  | x :: xs =>
    match pickMin f xs with
    | none => some x
    | some y => if f x ≤ f y then some x else some y

/-- The admissible `seg1` whose sample point is nearest 0.875
(spec section 4.1: split `tq - 1` quanta between `seg1` and `seg2` so the
sample point `(1+seg1)/tq` is nearest to 0.875, with `seg2` clamped to its
maximum field width). -/
def bestSeg1 (tq : Nat) : Nat := (pickMin (dist875 tq) (seg1Candidates tq)).getD 1

/-- Modelled from the spec: the bit-timing solver `util::calc_can_timings`
invoked by `init_mode` (src/lib.rs line 212) lives in src/util.rs, which is not
present under src/; only its call site and result type are.  This definition
follows spec section 4.1: for each candidate `tq` from the maximum of the
supported range down to the minimum, compute `prescaler = clock / (bitrate *
tq)`, accepting only an exact division with the prescaler within field limits;
for the first (largest-`tq`) acceptable candidate, split `tq - 1` quanta
between `seg1` and `seg2` so the sample point `(1+seg1)/tq` is nearest 0.875
subject to the field widths, and set `sync_jump_width = min(seg2, 4)`; return
`none` when no candidate is acceptable. -/
def calc_can_timings (clock bitrate : Nat) : Option NominalBitTiming :=
  match tqCandidates.find? (fun tq => tqExact clock bitrate tq) with
  | none => none
  | some tq =>
    let seg1 := bestSeg1 tq
    let seg2 := tq - 1 - seg1
    some ⟨prescalerFor clock bitrate tq, seg1, seg2, min seg2 4⟩

/-- Loop condition of `init_mode`'s entry wait (src/lib.rs line 203):
`!statr.read().inak() && wait_ack < CAN_INAK_TIMEOUT`; the read happens first. -/
def entryCond (reads : Nat → Bool) (i : Nat) : Bool :=
  !(reads i) && decide (i < CAN_INAK_TIMEOUT)

/-- Final value of `wait_ack` after `init_mode`'s entry wait loop
(src/lib.rs lines 201-205). -/
def enterWait (reads : Nat → Bool) : Nat :=
  loopExit (entryCond reads) (CAN_INAK_TIMEOUT + 1) 0

/-- Loop condition of `init_mode`'s exit wait (src/lib.rs line 236):
`statr.read().inak() && wait_ack < CAN_INAK_TIMEOUT`. -/
def exitCond (reads : Nat → Bool) (i : Nat) : Bool :=
  reads i && decide (i < CAN_INAK_TIMEOUT)

/-- Final value of `wait_ack` after `init_mode`'s exit wait loop
(src/lib.rs lines 234-238). -/
def exitWait (reads : Nat → Bool) : Nat :=
  loopExit (exitCond reads) (CAN_INAK_TIMEOUT + 1) 0

/-- Register writes performed by `init_mode`, in program order.
`ctlrRequestInit` is the CTLR modify clearing sleep and requesting init
(src/lib.rs lines 196-199); `btimr` is the bit-timing and mode-bit write
(lines 218-225), recording the masked-and-decremented field values exactly as
written; `ctlrClearInrq` is the CTLR modify requesting init exit (line 232). -/
inductive InitWrite
  | ctlrRequestInit
  | btimr (brp ts1 ts2 sjw : Nat) (lbkm silm : Bool)
  | ctlrClearInrq
  deriving DecidableEq, Repr

/-- Whether an `init_mode` write event is the bit-timing register write (which
also carries the two mode bits). -/
def isBtimrWrite : InitWrite → Bool
  | InitWrite.btimr _ _ _ _ _ _ => true
  | _ => false

/-- Embedding of `Can::init_mode` (src/lib.rs lines 195-245).  `entryReads` and
`exitReads` are the INAK read oracles of the two wait loops (each loop's i-th
condition evaluation reads `entryReads i` resp. `exitReads i`, and the
post-loop `if` check performs one further read).  Returns the result and the
list of register writes performed, in order. -/
def init_mode (entryReads exitReads : Nat → Bool) (clock bitrate : Nat)
    (mode : CanMode) : Except String Unit × List InitWrite :=
  let w := enterWait entryReads
  if !(entryReads (w + 1)) then
    (Except.error "CAN peripheral did not enter initialization mode",
     [InitWrite.ctlrRequestInit])
  else
    match calc_can_timings clock bitrate with
    | some bt =>
      let wb := InitWrite.btimr (bt.prescaler % 512 - 1) (bt.seg1 - 1)
        (bt.seg2 % 128 - 1) (bt.sync_jump_width % 128 - 1)
        mode.regs.lbkm mode.regs.silm
      let x := exitWait exitReads
      if exitReads (x + 1) then
        (Except.error "CAN peripheral did not exit initialization mode",
         [InitWrite.ctlrRequestInit, wb, InitWrite.ctlrClearInrq])
      else
        (Except.ok (), [InitWrite.ctlrRequestInit, wb, InitWrite.ctlrClearInrq])
    | none =>
      (Except.error
        "Could not calculate CAN timing parameters for configured clock rate and bit rate",
       [InitWrite.ctlrRequestInit])

/-- Embedding of the wait loop of `Registers::enter_init_mode`
(src/registers.rs lines 13-17): `loop { if statr.read().inak() { break } }`,
an unbounded poll; `some i` means the loop exits after the read at index `i`,
`none` that it has not exited within `fuel` reads. -/
def registers_enter_init_steps (inakReads : Nat → Bool) (fuel : Nat) : Option Nat :=
  whileSteps (fun i => !(inakReads i)) fuel 0

/-- Embedding of the wait loop of `Registers::leave_init_mode`
(src/registers.rs lines 24-28): `loop { if !statr.read().inak() { break } }`,
an unbounded poll. -/
def registers_leave_init_steps (inakReads : Nat → Bool) (fuel : Nat) : Option Nat :=
  whileSteps (fun i => inakReads i) fuel 0

/-- Register writes performed by `send_message_no_checks`, in program order:
the TXMDTR data-length modify, the two data-word writes, and the two TXMIR
identifier-register writes. -/
inductive TxEvent
  | dlcSet (mb dlc : Nat)
  | mdhr (mb v : Nat)
  | mdlr (mb v : Nat)
  | mirClear (mb : Nat)
  | mirSet (mb stid : Nat) (txrq : Bool)
  deriving DecidableEq, Repr

/-- Embedding of `tx_data_high` (src/lib.rs lines 294-297): bytes 4..7 of the
message packed into one 32-bit word, byte 4 least significant.  The source
forms the word by or-ing u8 values shifted to disjoint byte positions, which
equals this sum. -/
def tx_data_high (message : Nat → Nat) : Nat :=
  message 7 * 2 ^ 24 + message 6 * 2 ^ 16 + message 5 * 2 ^ 8 + message 4

/-- Embedding of `tx_data_low` (src/lib.rs lines 298-301): bytes 0..3 of the
message packed into one 32-bit word, byte 0 least significant. -/
def tx_data_low (message : Nat → Nat) : Nat :=
  message 3 * 2 ^ 24 + message 2 * 2 ^ 16 + message 1 * 2 ^ 8 + message 0

/-- Embedding of `Can::send_message_no_checks` (src/lib.rs lines 290-322).
`message i` is the i-th byte of the 8-byte payload (a u8, so below 256).  The
source fixes `mailbox_num` to 0 with a TODO comment ("determine mailbox num
depending on emptiness", line 291); it reads no mailbox-state register before
claiming the mailbox.  Returns the transmit result and the register writes
performed, in order; `txReads` is the TSTATR oracle of the completion poll. -/
def send_message_no_checks (message : Nat → Nat) (stid : Nat)
    (txReads : Nat → TStatR) : TxResult × List TxEvent :=
  let mailbox_num : Nat := 0
  (⟨transmit_status_blocking txReads, mailbox_num⟩,
   [TxEvent.dlcSet mailbox_num 8,
    TxEvent.mdhr mailbox_num (tx_data_high message),
    TxEvent.mdlr mailbox_num (tx_data_low message),
    TxEvent.mirClear mailbox_num,
    TxEvent.mirSet mailbox_num stid true])

/-- A received message (src/lib.rs lines 142-152); `data` is the 8-byte array. -/
structure RxMessage where
  length : Nat
  filter : Nat
  id : Nat
  data : List Nat
  deriving DecidableEq, Repr

/-- The receive-FIFO register values visible to one `receive_message` call:
pending-message count FMP, the two 32-bit data words (u32, so below 2^32), the
DLC length field (4 bits), the matched-filter index and the standard id. -/
structure RxRegs where
  fmp : Nat
  mdhr : Nat
  mdlr : Nat
  dlc : Nat
  fmi : Nat
  stid : Nat
  deriving DecidableEq, Repr

/-- Register accesses performed by `receive_message`, in program order. -/
inductive RxEvent
  | readFmp
  | readMdhr
  | readMdlr
  | readMdtr
  | readMir
  | writeRfom
  deriving DecidableEq, Repr

/-- Embedding of `Can::receive_message` (src/lib.rs lines 324-356): if the
FIFO's pending count is zero return `none` having only read FMP; otherwise
assemble the 64-bit payload as `(mdhr << 32) | mdlr` (disjoint positions, so a
sum), read length, filter index and id, unpack the payload little-endian into
the zero-initialised 8-byte array for indices below `min length 8` (the
`iter_mut().take(length)` clamp), and finally set the FIFO-release flag.
Returns the result and the access events, in order. -/
def receive_message (r : RxRegs) : Option RxMessage × List RxEvent :=
  if r.fmp = 0 then (none, [RxEvent.readFmp])
  else
    let rx_message_unordered := r.mdhr * 2 ^ 32 + r.mdlr
    let data := (List.range 8).map
      (fun i => if i < r.dlc then rx_message_unordered / 256 ^ i % 256 else 0)
    (some ⟨r.dlc, r.fmi, r.stid, data⟩,
     [RxEvent.readFmp, RxEvent.readMdhr, RxEvent.readMdlr, RxEvent.readMdtr,
      RxEvent.readMdtr, RxEvent.readMir, RxEvent.writeRfom])

/-- Byte `i` (little-endian) of a natural number. -/
def byteAt (v i : Nat) : Nat := v / 256 ^ i % 256

/-- INAK read oracle that is clear on every read the entry wait loop performs
(indices 0..CAN_INAK_TIMEOUT) and set from the post-loop check read onwards. -/
def cexInakReads : Nat → Bool := fun i => decide (0x10000 ≤ i)

/-- TSTATR read oracle whose completion bit is clear on polls 0..0xFFE and set
from poll 0xFFF (the final in-budget poll) onwards. -/
def cexTxReads : Nat → TStatR := fun i => ⟨decide (0xFFF ≤ i), false, false⟩

theorem loopExit_ge (cond : Nat → Bool) :
    ∀ fuel i, i ≤ loopExit cond fuel i := by
  intro fuel
  induction fuel with
  | zero => intro i; simp [loopExit]
  | succ fuel ih =>
    intro i
    simp only [loopExit]
    split
    · exact Nat.le_trans (Nat.le_succ i) (ih (i + 1))
    · exact Nat.le_refl i

theorem loopExit_le (cond : Nat → Bool) :
    ∀ fuel i, loopExit cond fuel i ≤ i + fuel := by
  intro fuel
  induction fuel with
  | zero => intro i; simp [loopExit]
  | succ fuel ih =>
    intro i
    simp only [loopExit]
    split
    · exact Nat.le_trans (ih (i + 1)) (by omega)
    · omega

theorem loopExit_before (cond : Nat → Bool) :
    ∀ fuel i j, i ≤ j → j < loopExit cond fuel i → cond j = true := by
  intro fuel
  induction fuel with
  | zero => intro i j hij hj; simp [loopExit] at hj; omega
  | succ fuel ih =>
    intro i j hij hj
    simp only [loopExit] at hj
    cases hc : cond i with
    | false => rw [hc] at hj; simp at hj; omega
    | true =>
      rw [hc] at hj
      simp only [if_true] at hj
      rcases Nat.eq_or_lt_of_le hij with heq | hlt
      · exact heq ▸ hc
      · exact ih (i + 1) j hlt hj

theorem loopExit_exit (cond : Nat → Bool) :
    ∀ fuel i, loopExit cond fuel i < i + fuel → cond (loopExit cond fuel i) = false := by
  intro fuel
  induction fuel with
  | zero => intro i h; simp [loopExit] at h
  | succ fuel ih =>
    intro i h
    simp only [loopExit] at h ⊢
    by_cases hc : cond i = true
    · rw [if_pos hc] at h ⊢
      exact ih (i + 1) (by omega)
    · rw [if_neg hc] at h ⊢
      simpa using hc

theorem loopExit_guard_le (cond : Nat → Bool) (T : Nat) (hT : cond T = false) :
    loopExit cond (T + 1) 0 ≤ T := by
  by_contra hgt
  have hTrue : cond T = true := loopExit_before cond (T + 1) 0 T (Nat.zero_le T) (by omega)
  rw [hT] at hTrue
  exact absurd hTrue (by simp)

theorem loopExit_guard_cond_false (cond : Nat → Bool) (T : Nat) (hT : cond T = false) :
    cond (loopExit cond (T + 1) 0) = false := by
  have hle : loopExit cond (T + 1) 0 ≤ T := loopExit_guard_le cond T hT
  exact loopExit_exit cond (T + 1) 0 (by omega)

theorem loopExit_lt_closed (N : Nat) :
    ∀ fuel j, loopExit (fun i => decide (i < N)) fuel j =
      if j < N then min N (j + fuel) else j := by
  intro fuel
  induction fuel with
  | zero => intro j; simp only [loopExit]; split <;> omega
  | succ fuel ih =>
    intro j
    simp only [loopExit, decide_eq_true_eq]
    rcases Nat.lt_or_ge j N with hj | hj
    · rw [if_pos hj, if_pos hj, ih (j + 1)]
      split <;> omega
    · rw [if_neg (Nat.not_lt.mpr hj), if_neg (Nat.not_lt.mpr hj)]

theorem whileSteps_isSome_of_false (cond : Nat → Bool) (n : Nat) (hn : cond n = false) :
    ∀ fuel j, j ≤ n → n < j + fuel → (whileSteps cond fuel j).isSome = true := by
  intro fuel
  induction fuel with
  | zero => intro j hj hlt; omega
  | succ fuel ih =>
    intro j hj hlt
    simp only [whileSteps]
    by_cases hc : cond j = true
    · rw [if_pos hc]
      have hne : j ≠ n := by
        intro h
        rw [h, hn] at hc
        exact absurd hc (by simp)
      exact ih (j + 1) (by omega) (by omega)
    · rw [if_neg hc]
      simp

theorem whileSteps_none_of_true (cond : Nat → Bool) (h : ∀ i, cond i = true) :
    ∀ fuel j, whileSteps cond fuel j = none := by
  intro fuel
  induction fuel with
  | zero => intro j; rfl
  | succ fuel ih => intro j; simp only [whileSteps, h j, if_true]; exact ih (j + 1)

theorem pickMin_mem (f : Nat → Nat) :
    ∀ l : List Nat, ∀ x, pickMin f l = some x → x ∈ l := by
  intro l
  induction l with
  | nil => intro x h; simp [pickMin] at h
  | cons a as ih =>
    intro x h
    simp only [pickMin] at h
    cases hrec : pickMin f as with
    | none =>
      rw [hrec] at h
      have h2 : some a = some x := h
      simp only [Option.some.injEq] at h2
      simp [← h2]
    | some y =>
      rw [hrec] at h
      have h2 : (if f a ≤ f y then some a else some y) = some x := h
      by_cases hle : f a ≤ f y
      · rw [if_pos hle] at h2
        simp only [Option.some.injEq] at h2
        simp [← h2]
      · rw [if_neg hle] at h2
        simp only [Option.some.injEq] at h2
        exact List.mem_cons_of_mem a (h2 ▸ ih y hrec)

theorem pickMin_eq_none (f : Nat → Nat) :
    ∀ l : List Nat, pickMin f l = none → l = [] := by
  intro l
  cases l with
  | nil => intro _; rfl
  | cons a as =>
    intro h
    simp only [pickMin] at h
    cases hrec : pickMin f as with
    | none =>
      rw [hrec] at h
      have h2 : some a = (none : Option Nat) := h
      simp at h2
    | some y =>
      rw [hrec] at h
      have h2 : (if f a ≤ f y then some a else some y) = none := h
      by_cases hle : f a ≤ f y
      · rw [if_pos hle] at h2; simp at h2
      · rw [if_neg hle] at h2; simp at h2

theorem pickMin_min (f : Nat → Nat) :
    ∀ l : List Nat, ∀ x, pickMin f l = some x → ∀ y ∈ l, f x ≤ f y := by
  intro l
  induction l with
  | nil => intro x h; simp [pickMin] at h
  | cons a as ih =>
    intro x h y hy
    simp only [pickMin] at h
    cases hrec : pickMin f as with
    | none =>
      rw [hrec] at h
      have h2 : some a = some x := h
      simp only [Option.some.injEq] at h2
      subst h2
      have has : as = [] := pickMin_eq_none f as hrec
      subst has
      have hya : y = a := by simpa using hy
      subst hya
      exact Nat.le_refl _
    | some z =>
      rw [hrec] at h
      have h2 : (if f a ≤ f z then some a else some z) = some x := h
      by_cases hle : f a ≤ f z
      · rw [if_pos hle] at h2
        simp only [Option.some.injEq] at h2
        subst h2
        rcases List.mem_cons.mp hy with rfl | hyas
        · exact Nat.le_refl _
        · exact Nat.le_trans hle (ih z hrec y hyas)
      · rw [if_neg hle] at h2
        simp only [Option.some.injEq] at h2
        subst h2
        rcases List.mem_cons.mp hy with rfl | hyas
        · exact Nat.le_of_lt (Nat.lt_of_not_le hle)
        · exact ih z hrec y hyas

theorem pickMin_isSome (f : Nat → Nat) (l : List Nat) (h : l ≠ []) :
    (pickMin f l).isSome = true := by
  cases l with
  | nil => exact absurd rfl h
  | cons a as =>
    simp only [pickMin]
    cases hrec : pickMin f as with
    | none => rfl
    | some y =>
      show (if f a ≤ f y then some a else some y).isSome = true
      by_cases hle : f a ≤ f y
      · rw [if_pos hle]; rfl
      · rw [if_neg hle]; rfl

theorem mem_seg1Candidates (tq s : Nat) :
    s ∈ seg1Candidates tq ↔ seg1Lo tq ≤ s ∧ s ≤ seg1Hi tq := by
  simp only [seg1Candidates, List.mem_map, List.mem_range]
  constructor
  · rintro ⟨k, hk, rfl⟩; omega
  · intro ⟨hlo, hhi⟩; exact ⟨s - seg1Lo tq, by omega, by omega⟩

theorem seg1Candidates_ne_nil (tq : Nat) (h8 : 8 ≤ tq) (h25 : tq ≤ 25) :
    seg1Candidates tq ≠ [] := by
  have hlohi : seg1Lo tq ≤ seg1Hi tq := by unfold seg1Lo seg1Hi; omega
  intro hnil
  have := congrArg List.length hnil
  simp [seg1Candidates] at this
  omega

theorem bestSeg1_mem (tq : Nat) (h8 : 8 ≤ tq) (h25 : tq ≤ 25) :
    bestSeg1 tq ∈ seg1Candidates tq := by
  have hsome := pickMin_isSome (dist875 tq) (seg1Candidates tq)
    (seg1Candidates_ne_nil tq h8 h25)
  obtain ⟨x, hp⟩ := Option.isSome_iff_exists.mp hsome
  have hbx : bestSeg1 tq = x := by simp [bestSeg1, hp]
  rw [hbx]
  exact pickMin_mem (dist875 tq) (seg1Candidates tq) x hp

theorem bestSeg1_min (tq : Nat) (h8 : 8 ≤ tq) (h25 : tq ≤ 25) :
    ∀ s ∈ seg1Candidates tq, dist875 tq (bestSeg1 tq) ≤ dist875 tq s := by
  have hsome := pickMin_isSome (dist875 tq) (seg1Candidates tq)
    (seg1Candidates_ne_nil tq h8 h25)
  obtain ⟨x, hp⟩ := Option.isSome_iff_exists.mp hsome
  have hbx : bestSeg1 tq = x := by simp [bestSeg1, hp]
  rw [hbx]
  exact pickMin_min (dist875 tq) (seg1Candidates tq) x hp

theorem mem_tqCandidates (tq : Nat) : tq ∈ tqCandidates ↔ 8 ≤ tq ∧ tq ≤ 25 := by
  simp [tqCandidates]
  omega

theorem tqCandidates_pairwise : tqCandidates.Pairwise (fun a b => b < a) := by
  simp [tqCandidates]

theorem find?_descending_max (p : Nat → Bool) :
    ∀ l : List Nat, l.Pairwise (fun a b => b < a) → ∀ tq, l.find? p = some tq →
      ∀ x ∈ l, p x = true → x ≤ tq := by
  intro l
  induction l with
  | nil => intro _ tq h; simp at h
  | cons a as ih =>
    intro hpw tq h x hx hpx
    cases hpa : p a with
    | false =>
      rw [List.find?_cons_of_neg _ (by simp [hpa])] at h
      rcases List.mem_cons.mp hx with rfl | hxas
      · rw [hpa] at hpx; exact absurd hpx (by simp)
      · exact ih (List.pairwise_cons.mp hpw).2 tq h x hxas hpx
    | true =>
      rw [List.find?_cons_of_pos _ hpa] at h
      simp only [Option.some.injEq] at h
      subst h
      rcases List.mem_cons.mp hx with rfl | hxas
      · exact Nat.le_refl x
      · exact Nat.le_of_lt ((List.pairwise_cons.mp hpw).1 x hxas)

theorem getD_range8_map (f : Nat → Nat) (i : Nat) (h : i < 8) :
    ((List.range 8).map f).getD i 0 = f i := by
  interval_cases i <;> rfl

/-- C1: for every (clock, bitrate) pair, whenever the bit-timing solver invoked
by `init_mode` returns parameters, they satisfy
`clock = bitrate * prescaler * (1 + seg1 + seg2)` with zero remainder, the
total quanta count `1 + seg1 + seg2` is the largest in the supported range
8..=25 whose division is exact (with the prescaler within field limits), and
among all admissible splits of that count the chosen `seg1` puts the sample
point `(1+seg1)/tq` nearest 0.875; and whenever no quanta count in the
supported range divides exactly, the solver returns `none` rather than an
approximate result. -/
theorem claim_c1_bit_timing (clock bitrate : Nat) :
    (∀ bt, calc_can_timings clock bitrate = some bt →
        clock = bitrate * bt.prescaler * (1 + bt.seg1 + bt.seg2)
          ∧ (∀ tq, 8 ≤ tq → tq ≤ 25 → tqExact clock bitrate tq = true →
              tq ≤ 1 + bt.seg1 + bt.seg2)
          ∧ (∀ s1 s2, 1 ≤ s1 → s1 ≤ 16 → 1 ≤ s2 → s2 ≤ 8 →
              1 + s1 + s2 = 1 + bt.seg1 + bt.seg2 →
              dist875 (1 + bt.seg1 + bt.seg2) bt.seg1
                ≤ dist875 (1 + bt.seg1 + bt.seg2) s1))
    ∧ ((∀ tq, tq < 26 → 8 ≤ tq → clock % (bitrate * tq) ≠ 0) →
        calc_can_timings clock bitrate = none) := by
  constructor
  · intro bt hbt
    unfold calc_can_timings at hbt
    cases hfind : tqCandidates.find? (fun tq => tqExact clock bitrate tq) with
    | none =>
      rw [hfind] at hbt
      exact absurd hbt (by simp)
    | some tq =>
      rw [hfind] at hbt
      have hbt2 : some (⟨prescalerFor clock bitrate tq, bestSeg1 tq,
          tq - 1 - bestSeg1 tq, min (tq - 1 - bestSeg1 tq) 4⟩ : NominalBitTiming)
          = some bt := hbt
      simp only [Option.some.injEq] at hbt2
      subst hbt2
      have hmem : tq ∈ tqCandidates := List.mem_of_find?_eq_some hfind
      have hbounds := (mem_tqCandidates tq).mp hmem
      have hpx : tqExact clock bitrate tq = true := by
        have hfs := List.find?_some hfind
        simpa using hfs
      rw [tqExact, Bool.and_eq_true, Bool.and_eq_true] at hpx
      have hmod : clock % (bitrate * tq) = 0 := by
        have := hpx.1.1
        simpa using this
      have hs1 := (mem_seg1Candidates tq (bestSeg1 tq)).mp
        (bestSeg1_mem tq hbounds.1 hbounds.2)
      have hlo := hs1.1
      have hhi := hs1.2
      unfold seg1Lo at hlo
      unfold seg1Hi at hhi
      have heq : 1 + bestSeg1 tq + (tq - 1 - bestSeg1 tq) = tq := by omega
      refine ⟨?_, ?_, ?_⟩
      · show clock = bitrate * prescalerFor clock bitrate tq
          * (1 + bestSeg1 tq + (tq - 1 - bestSeg1 tq))
        rw [heq]
        have hdvd : (bitrate * tq) ∣ clock := Nat.dvd_of_mod_eq_zero hmod
        calc clock = clock / (bitrate * tq) * (bitrate * tq) :=
              (Nat.div_mul_cancel hdvd).symm
          _ = bitrate * (clock / (bitrate * tq)) * tq := by ring
          _ = bitrate * prescalerFor clock bitrate tq * tq := by rw [prescalerFor]
      · intro tq2 h8 h25 hx2
        have hmem2 : tq2 ∈ tqCandidates := (mem_tqCandidates tq2).mpr ⟨h8, h25⟩
        have hle2 : tq2 ≤ tq := find?_descending_max _ tqCandidates
          tqCandidates_pairwise tq hfind tq2 hmem2 (by simpa using hx2)
        show tq2 ≤ 1 + bestSeg1 tq + (tq - 1 - bestSeg1 tq)
        omega
      · intro s1 s2 h1a h1b h2a h2b hsum
        show dist875 (1 + bestSeg1 tq + (tq - 1 - bestSeg1 tq)) (bestSeg1 tq)
          ≤ dist875 (1 + bestSeg1 tq + (tq - 1 - bestSeg1 tq)) s1
        rw [heq]
        have hsum2 : 1 + s1 + s2 = tq := by
          have : 1 + s1 + s2 = 1 + bestSeg1 tq + (tq - 1 - bestSeg1 tq) := hsum
          omega
        have hmem1 : s1 ∈ seg1Candidates tq := by
          rw [mem_seg1Candidates]
          unfold seg1Lo seg1Hi
          omega
        exact bestSeg1_min tq hbounds.1 hbounds.2 s1 hmem1
  · intro hall
    unfold calc_can_timings
    have hnone : tqCandidates.find? (fun tq => tqExact clock bitrate tq) = none := by
      rw [List.find?_eq_none]
      intro x hx
      have hb := (mem_tqCandidates x).mp hx
      have hmod := hall x (by omega) hb.1
      intro hcontra
      rw [tqExact, Bool.and_eq_true, Bool.and_eq_true] at hcontra
      exact hmod (by simpa using hcontra.1.1)
    rw [hnone]

/-- C1 witness: for clock 96 MHz and bitrate 500 kbps the solver's parameters
divide exactly (prescaler 8, seg1 16, seg2 7); for clock 3 Hz and bitrate
1 bps no quanta count divides and the solver returns `none`. -/
theorem claim_c1_witness :
    96000000 = 500000 * 8 * (1 + 16 + 7) ∧ calc_can_timings 3 1 = none := by
  constructor
  · exact ((claim_c1_bit_timing 96000000 500000).1 ⟨8, 16, 7, 4⟩ rfl).1
  · exact (claim_c1_bit_timing 3 1).2 (by decide)

/-- C2: the transmit path `send_message_no_checks` claims mailbox 0
unconditionally — it takes no mailbox-state input at all, so for any two
back-to-back calls (any payloads, ids and status-read sequences, including
ones where mailbox 0 is still pending) both calls claim mailbox index 0, never
two distinct mailboxes; and the transmit outcome type is exhausted by
`Sent`, `TimeoutError`, `ArbitrationError` and `OtherError`, so no
mailboxes-full outcome can ever be reported. -/
theorem claim_c2_mailbox_selection :
    (∀ (m1 m2 : Nat → Nat) (s1 s2 : Nat) (r1 r2 : Nat → TStatR),
        (send_message_no_checks m1 s1 r1).1.mailbox = 0
          ∧ (send_message_no_checks m2 s2 r2).1.mailbox = 0)
    ∧ (∀ st : TxStatus, st = TxStatus.Sent ∨ st = TxStatus.TimeoutError
        ∨ st = TxStatus.ArbitrationError ∨ st = TxStatus.OtherError) := by
  constructor
  · intro m1 m2 s1 s2 r1 r2
    exact ⟨rfl, rfl⟩
  · intro st
    cases st <;> simp

/-- C3 (amended): the wait loops of `init_mode` (entry and exit) and the
transmit completion poll in lib.rs terminate within their fixed ceilings —
at most `CAN_INAK_TIMEOUT + 1` resp. `CAN_TX_TIMEOUT + 1` condition
evaluations — for every possible sequence of register read values. -/
theorem claim_c3_bounded_loops (entryReads exitReads : Nat → Bool)
    (txReads : Nat → TStatR) :
    (whileSteps (entryCond entryReads) (CAN_INAK_TIMEOUT + 1) 0).isSome = true
    ∧ (whileSteps (exitCond exitReads) (CAN_INAK_TIMEOUT + 1) 0).isSome = true
    ∧ (whileSteps (txCond txReads) (CAN_TX_TIMEOUT + 1) 0).isSome = true := by
  refine ⟨?_, ?_, ?_⟩
  · exact whileSteps_isSome_of_false _ CAN_INAK_TIMEOUT (by simp [entryCond])
      (CAN_INAK_TIMEOUT + 1) 0 (Nat.zero_le _) (by omega)
  · exact whileSteps_isSome_of_false _ CAN_INAK_TIMEOUT (by simp [exitCond])
      (CAN_INAK_TIMEOUT + 1) 0 (Nat.zero_le _) (by omega)
  · exact whileSteps_isSome_of_false _ CAN_TX_TIMEOUT (by simp [txCond])
      (CAN_TX_TIMEOUT + 1) 0 (Nat.zero_le _) (by omega)

/-- C3 counterexample: the wait loop of `Registers::enter_init_mode`
(src/registers.rs lines 13-17) has no iteration ceiling: when the polled INAK
bit never reads set, the loop has not exited after any finite number of
condition evaluations, so it does not terminate within any fixed ceiling. -/
theorem claim_c3_counterexample :
    ¬ ∃ fuel : Nat, (registers_enter_init_steps (fun _ => false) fuel).isSome = true := by
  rintro ⟨fuel, hf⟩
  have h0 : registers_enter_init_steps (fun _ => false) fuel = none := by
    unfold registers_enter_init_steps
    exact whileSteps_none_of_true _ (fun i => rfl) fuel 0
  rw [h0] at hf
  simp at hf

/-- C4 (amended): for every filter programmed via `add_filter`, within the
filter-edit window (FINIT set first, cleared last) the bank's activation flag
is set — not cleared — before its scale, two pattern registers, matching
scheme and target-FIFO association are written, and the flag is set once more
afterwards; no write ever marks the bank inactive. -/
theorem claim_c4_filter_sequence (fifo : CanFifo) (f : CanFilter) :
    add_filter fifo f =
      [FilterEvent.finit true, FilterEvent.fact f.bank true,
       FilterEvent.fsc f.bank true, FilterEvent.fr (f.bank * 2) f.id_value,
       FilterEvent.fr (f.bank * 2 + 1) f.id_mask,
       FilterEvent.fbm f.bank f.mode.val_bool,
       FilterEvent.ffa f.bank fifo.val_bool,
       FilterEvent.fact f.bank true, FilterEvent.finit false]
    ∧ FilterEvent.fact f.bank false ∉ add_filter fifo f := by
  constructor
  · rfl
  · simp [add_filter, CanFilter.fr_id_value_reg, CanFilter.fr_id_mask_reg]

/-- C4 counterexample: programming the default filter (bank 0) never writes the
bank's activation flag as false — in particular the write after entering the
filter-edit window, position 1 of the sequence, marks the bank active, not
inactive as the claim states. -/
theorem claim_c4_counterexample :
    FilterEvent.fact 0 false ∉
        add_filter CanFifo.Fifo1 ⟨0, CanFilterMode.IdMask, 0, 0⟩
      ∧ (add_filter CanFifo.Fifo1 ⟨0, CanFilterMode.IdMask, 0, 0⟩).get? 1
          = some (FilterEvent.fact 0 true) := by
  decide

/-- C5 (amended): transmit completion polling returns `TimeoutError` exactly
when the wait counter runs its full budget (reaches `CAN_TX_TIMEOUT`), even if
the completion bit reads set on the final in-budget poll; on an early exit the
completion bit was observed set by the exiting poll, and the outcome is then
decided by one fresh status read, in priority order `Sent` (completion bit),
`ArbitrationError` (arbitration-lost bit), `OtherError` (fallback). -/
theorem claim_c5_completion_poll (reads : Nat → TStatR) :
    (transmit_status_blocking reads = TxStatus.TimeoutError
      ↔ txWaitStatus reads = CAN_TX_TIMEOUT)
    ∧ (txWaitStatus reads < CAN_TX_TIMEOUT →
        (reads (txWaitStatus reads)).txok = true
          ∧ transmit_status_blocking reads =
              (if (reads (txWaitStatus reads + 1)).txok then TxStatus.Sent
               else if (reads (txWaitStatus reads + 1)).alst then
                 TxStatus.ArbitrationError
               else TxStatus.OtherError)) := by
  have hcondT : txCond reads CAN_TX_TIMEOUT = false := by simp [txCond]
  have hle : txWaitStatus reads ≤ CAN_TX_TIMEOUT := by
    unfold txWaitStatus
    exact loopExit_guard_le _ _ hcondT
  have hexit : txCond reads (txWaitStatus reads) = false := by
    unfold txWaitStatus
    exact loopExit_guard_cond_false _ _ hcondT
  by_cases hws : txWaitStatus reads = CAN_TX_TIMEOUT
  · refine ⟨⟨fun _ => hws, fun _ => ?_⟩, fun hlt => absurd hws (by omega)⟩
    simp only [transmit_status_blocking]
    rw [if_pos hws]
  · have hlt : txWaitStatus reads < CAN_TX_TIMEOUT := by omega
    have htxok : (reads (txWaitStatus reads)).txok = true := by
      rw [txCond] at hexit
      have hd : decide (txWaitStatus reads < CAN_TX_TIMEOUT) = true := by
        simpa using hlt
      rw [hd, Bool.and_true] at hexit
      simpa using hexit
    refine ⟨⟨fun hres => ?_, fun h => absurd h hws⟩, fun _ => ⟨htxok, ?_⟩⟩
    · exfalso
      simp only [transmit_status_blocking] at hres
      rw [if_neg hws] at hres
      split at hres
      · exact TxStatus.noConfusion hres
      · split at hres
        · exact TxStatus.noConfusion hres
        · split at hres
          · exact TxStatus.noConfusion hres
          · exact TxStatus.noConfusion hres
    · simp only [transmit_status_blocking]
      rw [if_neg hws]
      by_cases h1 : (reads (txWaitStatus reads + 1)).txok = true
      · rw [if_pos h1, if_pos h1]
      · rw [if_neg h1, if_neg h1]
        by_cases h2 : (reads (txWaitStatus reads + 1)).alst = true
        · rw [if_pos h2, if_pos h2]
        · rw [if_neg h2, if_neg h2]
          by_cases h3 : (reads (txWaitStatus reads + 1)).terr = true
          · rw [if_pos h3]
          · rw [if_neg h3]

/-- C5 witness: with the completion bit set from the first poll the loop exits
immediately and the outcome is `Sent`. -/
theorem claim_c5_witness :
    transmit_status_blocking (fun _ => ⟨true, false, false⟩) = TxStatus.Sent := by
  have h := ((claim_c5_completion_poll (fun _ => ⟨true, false, false⟩)).2
    (by decide)).2
  rw [h]
  rfl

/-- C5 counterexample: when the completion bit first reads set on the final
in-budget poll (read index `CAN_TX_TIMEOUT`), the completion bit is observed
set during polling, yet the outcome is `TimeoutError`, not `Sent` — refuting
both that `Sent` has priority whenever the bit is observed set and that
`TimeoutError` occurs only when the bit was never observed set. -/
theorem claim_c5_counterexample :
    (cexTxReads (txWaitStatus cexTxReads)).txok = true
    ∧ transmit_status_blocking cexTxReads = TxStatus.TimeoutError := by
  have hfun : txCond cexTxReads = fun i => decide (i < CAN_TX_TIMEOUT) := by
    funext i
    simp only [txCond, cexTxReads, CAN_TX_TIMEOUT]
    by_cases hi : i < 4095
    · simp [hi, show ¬(4095 ≤ i) by omega]
    · simp [hi]
  have hws : txWaitStatus cexTxReads = CAN_TX_TIMEOUT := by
    unfold txWaitStatus
    rw [hfun, loopExit_lt_closed]
    norm_num [CAN_TX_TIMEOUT]
  constructor
  · rw [hws]
    decide
  · simp only [transmit_status_blocking]
    rw [if_pos hws]

/-- C6 (amended): whenever the init-mode acknowledgment bit reads clear on the
decisive post-loop check during init-mode entry — in particular whenever the
bit never reads set at all — `init_mode` returns the entry error and performs
no write to the bit-timing register and no mode-bit programming: the only
register write performed is the initial CTLR init request. -/
theorem claim_c6_no_stale_programming (entryReads exitReads : Nat → Bool)
    (clock bitrate : Nat) (mode : CanMode)
    (h : entryReads (enterWait entryReads + 1) = false) :
    init_mode entryReads exitReads clock bitrate mode =
      (Except.error "CAN peripheral did not enter initialization mode",
       [InitWrite.ctlrRequestInit]) := by
  simp [init_mode, h]

/-- C6 witness: with the acknowledgment bit stuck clear, `init_mode` reports
the entry error. -/
theorem claim_c6_witness :
    (init_mode (fun _ => false) (fun _ => false) 96000000 500000 CanMode.Normal).1
      = Except.error "CAN peripheral did not enter initialization mode" := by
  rw [claim_c6_no_stale_programming (fun _ => false) (fun _ => false)
    96000000 500000 CanMode.Normal rfl]

/-- C6 counterexample: with an acknowledgment bit that reads clear on every
read of the bounded entry loop (the loop exhausts its full budget, so the bit
is never observed set within it) but reads set on the post-loop check,
`init_mode` proceeds and writes the bit-timing register — refuting the claim
that budget exhaustion without an in-loop acknowledgment prevents
bit-timing/mode programming. -/
theorem claim_c6_counterexample :
    enterWait cexInakReads = CAN_INAK_TIMEOUT
    ∧ cexInakReads (enterWait cexInakReads) = false
    ∧ ((init_mode cexInakReads (fun _ => false) 96000000 500000
        CanMode.Normal).2.any isBtimrWrite) = true := by
  have hfun : entryCond cexInakReads = fun i => decide (i < CAN_INAK_TIMEOUT) := by
    funext i
    simp only [entryCond, cexInakReads, CAN_INAK_TIMEOUT]
    by_cases hi : i < 65535
    · simp [hi, show ¬(65536 ≤ i) by omega]
    · simp [hi]
  have hew : enterWait cexInakReads = CAN_INAK_TIMEOUT := by
    unfold enterWait
    rw [hfun, loopExit_lt_closed]
    norm_num [CAN_INAK_TIMEOUT]
  refine ⟨hew, ?_, ?_⟩
  · rw [hew]
    decide
  · have hcheck : cexInakReads (enterWait cexInakReads + 1) = true := by
      rw [hew]
      decide
    have hcalc : calc_can_timings 96000000 500000 =
        some ⟨8, 16, 7, 4⟩ := rfl
    simp [init_mode, hcheck, hcalc, isBtimrWrite]

theorem byteAt_low (a b : Nat) (_hb : b < 2 ^ 32) :
    ∀ i, i < 4 → byteAt (a * 2 ^ 32 + b) i = byteAt b i := by
  intro i hi
  unfold byteAt
  have h32 : (2 : Nat) ^ 32 = 4294967296 := by norm_num
  rw [h32]
  interval_cases i
  · simp only [pow_zero, Nat.div_one]
    omega
  · simp only [pow_one]
    omega
  · have h2 : (256 : Nat) ^ 2 = 65536 := by norm_num
    rw [h2]
    omega
  · have h3 : (256 : Nat) ^ 3 = 16777216 := by norm_num
    rw [h3]
    omega

theorem byteAt_high (a b : Nat) (hb : b < 2 ^ 32) :
    ∀ i, 4 ≤ i → i < 8 → byteAt (a * 2 ^ 32 + b) i = byteAt a (i - 4) := by
  intro i h4 h8
  unfold byteAt
  have h32 : (2 : Nat) ^ 32 = 4294967296 := by norm_num
  rw [h32] at hb ⊢
  interval_cases i
  · have hp : (256 : Nat) ^ 4 = 4294967296 := by norm_num
    rw [hp]
    simp only [Nat.sub_self, pow_zero, Nat.div_one]
    omega
  · have hp : (256 : Nat) ^ 5 = 1099511627776 := by norm_num
    rw [hp]
    have hq : (5 : Nat) - 4 = 1 := rfl
    rw [hq]
    simp only [pow_one]
    omega
  · have hp : (256 : Nat) ^ 6 = 281474976710656 := by norm_num
    rw [hp]
    have hq : (6 : Nat) - 4 = 2 := rfl
    rw [hq]
    have h2 : (256 : Nat) ^ 2 = 65536 := by norm_num
    rw [h2]
    omega
  · have hp : (256 : Nat) ^ 7 = 72057594037927936 := by norm_num
    rw [hp]
    have hq : (7 : Nat) - 4 = 3 := rfl
    rw [hq]
    have h3 : (256 : Nat) ^ 3 = 16777216 := by norm_num
    rw [h3]
    omega

/-- C7: for every transmitted 8-byte payload (bytes below 256, as u8 values
are), the low data word packs bytes 0-3 and the high data word bytes 4-7, each
little-endian (bytes 0 and 4 in the least-significant position); and the
register-write sequence of `send_message_no_checks` sets the length, writes the
two data words, clears the identifier register, and only then writes the
identifier together with the transmit-request bit in one step. -/
theorem claim_c7_payload_layout (m : Nat → Nat) (stid : Nat)
    (reads : Nat → TStatR) (hm : ∀ i, i < 8 → m i < 256) :
    (byteAt (tx_data_low m) 0 = m 0 ∧ byteAt (tx_data_low m) 1 = m 1
      ∧ byteAt (tx_data_low m) 2 = m 2 ∧ byteAt (tx_data_low m) 3 = m 3)
    ∧ (byteAt (tx_data_high m) 0 = m 4 ∧ byteAt (tx_data_high m) 1 = m 5
      ∧ byteAt (tx_data_high m) 2 = m 6 ∧ byteAt (tx_data_high m) 3 = m 7)
    ∧ (send_message_no_checks m stid reads).2 =
        [TxEvent.dlcSet 0 8, TxEvent.mdhr 0 (tx_data_high m),
         TxEvent.mdlr 0 (tx_data_low m), TxEvent.mirClear 0,
         TxEvent.mirSet 0 stid true] := by
  have h0 := hm 0 (by omega)
  have h1 := hm 1 (by omega)
  have h2 := hm 2 (by omega)
  have h3 := hm 3 (by omega)
  have h4 := hm 4 (by omega)
  have h5 := hm 5 (by omega)
  have h6 := hm 6 (by omega)
  have h7 := hm 7 (by omega)
  have hp0 : (256 : Nat) ^ 0 = 1 := rfl
  have hp1 : (256 : Nat) ^ 1 = 256 := rfl
  have hp2 : (256 : Nat) ^ 2 = 65536 := by norm_num
  have hp3 : (256 : Nat) ^ 3 = 16777216 := by norm_num
  have hq1 : (2 : Nat) ^ 8 = 256 := by norm_num
  have hq2 : (2 : Nat) ^ 16 = 65536 := by norm_num
  have hq3 : (2 : Nat) ^ 24 = 16777216 := by norm_num
  refine ⟨⟨?_, ?_, ?_, ?_⟩, ⟨?_, ?_, ?_, ?_⟩, rfl⟩ <;>
    (simp only [byteAt, tx_data_low, tx_data_high, hp0, hp1, hp2, hp3,
      hq1, hq2, hq3, Nat.div_one]; omega)

/-- C7 witness: with payload bytes 0,1,...,7 the packed words place byte 3 at
the top of the low word and byte 4 at the bottom of the high word. -/
theorem claim_c7_witness :
    byteAt (tx_data_low (fun i => i)) 3 = 3
      ∧ byteAt (tx_data_high (fun i => i)) 0 = 4 := by
  have h := claim_c7_payload_layout (fun i => i) 791
    (fun _ => ⟨true, false, false⟩) (fun i hi => by show i < 256; omega)
  exact ⟨h.1.2.2.2, h.2.1.1⟩

/-- C8: every message returned by `receive_message` has its data bytes at
indices below `length` equal to the bytes unpacked little-endian from the two
32-bit FIFO data words (the low word supplying bytes 0-3, the high word bytes
4-7), and every data byte at an index at or above `length` equal to zero. -/
theorem claim_c8_receive_unpack (r : RxRegs) (msg : RxMessage)
    (hlow : r.mdlr < 2 ^ 32) (h : (receive_message r).1 = some msg) :
    (∀ i, i < 4 → i < msg.length → msg.data.getD i 0 = byteAt r.mdlr i)
    ∧ (∀ i, 4 ≤ i → i < 8 → i < msg.length →
        msg.data.getD i 0 = byteAt r.mdhr (i - 4))
    ∧ (∀ i, i < 8 → msg.length ≤ i → msg.data.getD i 0 = 0) := by
  unfold receive_message at h
  by_cases hf : r.fmp = 0
  · rw [if_pos hf] at h
    exact absurd h (by simp)
  · rw [if_neg hf] at h
    have h2 : some (⟨r.dlc, r.fmi, r.stid, (List.range 8).map
        (fun i => if i < r.dlc then (r.mdhr * 2 ^ 32 + r.mdlr) / 256 ^ i % 256
          else 0)⟩ : RxMessage) = some msg := h
    simp only [Option.some.injEq] at h2
    subst h2
    refine ⟨?_, ?_, ?_⟩
    · intro i h4 hlen
      have hlen2 : i < r.dlc := hlen
      show ((List.range 8).map
        (fun j => if j < r.dlc then (r.mdhr * 2 ^ 32 + r.mdlr) / 256 ^ j % 256
          else 0)).getD i 0 = byteAt r.mdlr i
      rw [getD_range8_map _ i (by omega), if_pos hlen2]
      exact byteAt_low r.mdhr r.mdlr hlow i h4
    · intro i h4 h8 hlen
      have hlen2 : i < r.dlc := hlen
      show ((List.range 8).map
        (fun j => if j < r.dlc then (r.mdhr * 2 ^ 32 + r.mdlr) / 256 ^ j % 256
          else 0)).getD i 0 = byteAt r.mdhr (i - 4)
      rw [getD_range8_map _ i h8, if_pos hlen2]
      exact byteAt_high r.mdhr r.mdlr hlow i h4 h8
    · intro i h8 hlen
      have hlen2 : r.dlc ≤ i := hlen
      show ((List.range 8).map
        (fun j => if j < r.dlc then (r.mdhr * 2 ^ 32 + r.mdlr) / 256 ^ j % 256
          else 0)).getD i 0 = 0
      rw [getD_range8_map _ i h8, if_neg (by omega)]

/-- C8 witness: a concrete frame of length 4 exposes exactly the four low-word
bytes and zeroes beyond. -/
theorem claim_c8_witness :
    ([0x01, 0x23, 0x45, 0x67, (0 : Nat), 0, 0, 0].getD 2 0 = byteAt 0x67452301 2)
    ∧ ([0x01, 0x23, 0x45, 0x67, (0 : Nat), 0, 0, 0].getD 6 0 = 0) := by
  have h := claim_c8_receive_unpack ⟨1, 0xEFCDAB89, 0x67452301, 4, 2, 0x317⟩
    ⟨4, 2, 0x317, [0x01, 0x23, 0x45, 0x67, 0, 0, 0, 0]⟩ (by norm_num) rfl
  exact ⟨h.1 2 (by omega) (by decide), h.2.2 6 (by omega) (by decide)⟩

/-- C9: whenever the FIFO's pending-message count reads zero,
`receive_message` returns `none` having performed no register write and no
data-register read (its only access is the pending-count read); the
FIFO-release write occurs only on the message-returning path, as the last
access after all status and data reads. -/
theorem claim_c9_empty_fifo (r : RxRegs) :
    (r.fmp = 0 →
        (receive_message r).1 = none
          ∧ (receive_message r).2 = [RxEvent.readFmp]
          ∧ RxEvent.writeRfom ∉ (receive_message r).2
          ∧ RxEvent.readMdhr ∉ (receive_message r).2
          ∧ RxEvent.readMdlr ∉ (receive_message r).2)
    ∧ (r.fmp ≠ 0 →
        (∃ msg, (receive_message r).1 = some msg)
          ∧ (receive_message r).2 =
              [RxEvent.readFmp, RxEvent.readMdhr, RxEvent.readMdlr,
               RxEvent.readMdtr, RxEvent.readMdtr, RxEvent.readMir,
               RxEvent.writeRfom]
          ∧ (receive_message r).2.getLast? = some RxEvent.writeRfom) := by
  constructor
  · intro hf
    refine ⟨?_, ?_, ?_, ?_, ?_⟩ <;> simp [receive_message, hf]
  · intro hf
    refine ⟨⟨⟨r.dlc, r.fmi, r.stid, (List.range 8).map
        (fun i => if i < r.dlc then (r.mdhr * 2 ^ 32 + r.mdlr) / 256 ^ i % 256
          else 0)⟩, ?_⟩, ?_, ?_⟩ <;> simp [receive_message, hf]

/-- C9 witness: an empty FIFO yields `none`, and a non-empty FIFO's access
trace ends with the release write. -/
theorem claim_c9_witness :
    (receive_message ⟨0, 5, 6, 7, 8, 9⟩).1 = none
    ∧ (receive_message ⟨2, 0, 0, 0, 0, 0⟩).2.getLast? = some RxEvent.writeRfom := by
  exact ⟨((claim_c9_empty_fifo ⟨0, 5, 6, 7, 8, 9⟩).1 rfl).1,
    ((claim_c9_empty_fifo ⟨2, 0, 0, 0, 0, 0⟩).2 (by decide)).2.2⟩

/-- C10: for every hardware-reported length field value up to 15,
`receive_message` is total and clamps unpacking at 8 bytes: the returned data
array always has exactly 8 entries, entry `i` being the unpacked byte exactly
when `i < min length 8` and zero otherwise — no access beyond the 8-byte
array occurs. -/
theorem claim_c10_length_clamp (r : RxRegs) (hdlc : r.dlc ≤ 15) (msg : RxMessage)
    (h : (receive_message r).1 = some msg) :
    msg.data.length = 8
    ∧ (∀ i, i < 8 →
        msg.data.getD i 0 =
          if i < min r.dlc 8 then byteAt (r.mdhr * 2 ^ 32 + r.mdlr) i else 0) := by
  unfold receive_message at h
  by_cases hf : r.fmp = 0
  · rw [if_pos hf] at h
    exact absurd h (by simp)
  · rw [if_neg hf] at h
    have h2 : some (⟨r.dlc, r.fmi, r.stid, (List.range 8).map
        (fun i => if i < r.dlc then (r.mdhr * 2 ^ 32 + r.mdlr) / 256 ^ i % 256
          else 0)⟩ : RxMessage) = some msg := h
    simp only [Option.some.injEq] at h2
    subst h2
    constructor
    · show ((List.range 8).map
        (fun j => if j < r.dlc then (r.mdhr * 2 ^ 32 + r.mdlr) / 256 ^ j % 256
          else 0)).length = 8
      simp
    · intro i hi
      show ((List.range 8).map
        (fun j => if j < r.dlc then (r.mdhr * 2 ^ 32 + r.mdlr) / 256 ^ j % 256
          else 0)).getD i 0 =
        if i < min r.dlc 8 then byteAt (r.mdhr * 2 ^ 32 + r.mdlr) i else 0
      rw [getD_range8_map _ i hi]
      by_cases hid : i < r.dlc
      · rw [if_pos hid, if_pos (by omega)]
        rfl
      · rw [if_neg hid, if_neg (by omega)]

/-- C10 witness: a frame whose DLC field reads 15 still yields exactly 8 data
bytes, all eight unpacked from the data words. -/
theorem claim_c10_witness :
    ([0x44, 0x33, 0x22, 0x11, 0xDD, 0xCC, 0xBB, (0xAA : Nat)].length = 8)
    ∧ ([0x44, 0x33, 0x22, 0x11, 0xDD, 0xCC, 0xBB, (0xAA : Nat)].getD 7 0 =
        if 7 < min 15 8 then byteAt (0xAABBCCDD * 2 ^ 32 + 0x11223344) 7 else 0) := by
  have h := claim_c10_length_clamp ⟨1, 0xAABBCCDD, 0x11223344, 15, 0, 0⟩
    (by decide) ⟨15, 0, 0, [0x44, 0x33, 0x22, 0x11, 0xDD, 0xCC, 0xBB, 0xAA]⟩ rfl
  exact ⟨h.1, h.2 7 (by decide)⟩

end Ch32Can
